import Mathlib

/-!
Verification of the crash-log processing core of
`ModOrganizer-CrashLogTools` (`crashlogtools/crashlogutil.py`).

Lines of a file are modelled as lists of bytes (`List Nat`, each entry a byte
value).  The byte-level regular expression `STACK_PATTERN`
`(\t\[ *\d+] 0x[0-9A-F]+ .*\+[0-9A-F]+) -> (?P<id>\d+)\+0x[0-9A-F]+`
is embedded as an executable matcher with Python's leftmost/greedy
backtracking semantics (`.` matches any byte except the newline byte 10; the
match is anchored at the start of the line and may end before the end of the
line).  `match.group(0)` — the full matched byte run — and the decimal value
of the `id` group are the only parts of the match object the source consults,
so the matcher returns exactly these two.
-/

namespace CrashLogTools

abbrev Bytes := List Nat

/-- Bytes of an ASCII string (each character is one byte). -/
def strBytes (s : String) : Bytes :=
  s.data.map Char.toNat

/-- The space byte, as tested by the literal space in the pattern. -/
def isSpaceByte (c : Nat) : Bool := c == 32

/-- `\d` of a Python bytes pattern: ASCII decimal digits. -/
def isDigitByte (c : Nat) : Bool := 48 ≤ c && c ≤ 57

/-- `[0-9A-F]`: decimal digits and uppercase hex letters. -/
def isHexUByte (c : Nat) : Bool := isDigitByte c || (65 ≤ c && c ≤ 70)

/-- `.` of a Python bytes pattern without DOTALL: any byte except `\n`. -/
def isDotByte (c : Nat) : Bool := c != 10

/-- Match a literal byte sequence at the front, returning the rest. -/
def lit : Bytes → Bytes → Option Bytes
  | [], s => some s
  | _ :: _, [] => none
  | c :: l, d :: s => if d = c then lit l s else none

/-- Greedy `p+`: the maximal nonempty run of bytes satisfying `p`. -/
def plusRun (p : Nat → Bool) (s : Bytes) : Option (Bytes × Bytes) :=
  if s.takeWhile p = [] then none else some (s.takeWhile p, s.dropWhile p)

/-- Decimal value of a digit string, as `int()` computes it. -/
def digitsToNat (s : Bytes) : Nat :=
  s.foldl (fun a c => a * 10 + (c - 48)) 0

/-- The part of `STACK_PATTERN` after `.*`, namely
`\+[0-9A-F]+ -> \d+\+0x[0-9A-F]+`; deterministic because each greedy
one-or-more class is followed by a byte outside the class.  Returns the
matched bytes and the decimal value of the `id` group. -/
def matchTail (s : Bytes) : Option (Bytes × Nat) :=
  match lit [43] s with
  | none => none
  | some r1 =>
    match plusRun isHexUByte r1 with
    | none => none
    | some (h1, r2) =>
      match lit [32, 45, 62, 32] r2 with
      | none => none
      | some r3 =>
        match plusRun isDigitByte r3 with
        | none => none
        | some (d, r4) =>
          match lit [43, 48, 120] r4 with
          | none => none
          | some r5 =>
            match plusRun isHexUByte r5 with
            | none => none
            | some (h2, _) =>
              some ([43] ++ h1 ++ [32, 45, 62, 32] ++ d ++ [43, 48, 120] ++ h2,
                digitsToNat d)

/-- Greedy `.*` followed by `matchTail`: prefer the longest star run (Python
tries maximal repetition first and backtracks).  Returns the star bytes and
the tail result. -/
def starScan : Bytes → Option (Bytes × (Bytes × Nat))
  | [] =>
    match matchTail [] with
    | none => none
    | some t => some ([], t)
  | c :: rest =>
    if c = 10 then
      match matchTail (c :: rest) with
      | none => none
      | some t => some ([], t)
    else
      match starScan rest with
      | some (pre, t) => some (c :: pre, t)
      | none =>
        match matchTail (c :: rest) with
        | none => none
        | some t => some ([], t)

/-- `STACK_PATTERN.match(line)`: on success, `match.group(0)` (all matched
bytes, a prefix of the line) and `int(match.group("id"))`. -/
def stackMatch (line : Bytes) : Option (Bytes × Nat) :=
  match lit [9, 91] line with
  | none => none
  | some r1 =>
    let sp := r1.takeWhile isSpaceByte
    let r2 := r1.dropWhile isSpaceByte
    match plusRun isDigitByte r2 with
    | none => none
    | some (d1, r3) =>
      match lit [93, 32, 48, 120] r3 with
      | none => none
      | some r4 =>
        match plusRun isHexUByte r4 with
        | none => none
        | some (h1, r5) =>
          match lit [32] r5 with
          | none => none
          | some r6 =>
            match starScan r6 with
            | none => none
            | some (mid, (tl, idv)) =>
              some ([9, 91] ++ sp ++ d1 ++ [93, 32, 48, 120] ++ h1 ++ [32]
                ++ mid ++ tl, idv)

/-- `bytes.rstrip(b"_*")`: drop trailing `_` (95) and `*` (42) bytes. -/
def rstripUS (s : Bytes) : Bytes :=
  (s.reverse.dropWhile (fun c => c == 95 || c == 42)).reverse

/-- `bytes.ljust(width, b' ')`. -/
def ljust (s : Bytes) (width : Nat) : Bytes :=
  s ++ List.replicate (width - s.length) 32

/-- `CrashLogProcessor.add_name(line, id_lookup, width)`.  The dictionary is
modelled as a partial map; `if not name` is true both for a missing key and
for an empty name. -/
def add_name (line : Bytes) (id_lookup : Nat → Option Bytes) (width : Nat) :
    Bytes :=
  match stackMatch line with
  | none => line
  | some (g0, i) =>
    match id_lookup i with
    | none => g0 ++ [10]
    | some name =>
      if name = [] then g0 ++ [10]
      else ljust g0 width ++ rstripUS name ++ [10]

example :
    stackMatch (strBytes ("\t[ 0] 0xA B+C -> 5+0xD")) =
      some (strBytes ("\t[ 0] 0xA B+C -> 5+0xD"), 5) := by decide

example :
    stackMatch (strBytes ("\t[ 0] 0xA B+C -> 5+0xD\r\n")) =
      some (strBytes ("\t[ 0] 0xA B+C -> 5+0xD"), 5) := by decide

example : stackMatch (strBytes ("\t[0] 0xA a b+F -> 1+0xA")) =
    some (strBytes ("\t[0] 0xA a b+F -> 1+0xA"), 1) := by decide

example : stackMatch (strBytes ("plain line")) = none := by decide

example :
    stackMatch (strBytes ("\t[0] 0xA A+B -> 1+0xC+D -> 2+0xE")) =
      some (strBytes ("\t[0] 0xA A+B -> 1+0xC+D -> 2+0xE"), 2) := by decide

/-!
## The crash-log document

`CrashLog.read_file` reads a file with repeated `readline()` calls: a line is
a chunk ending in the newline byte, except possibly the last chunk of the
file.  `splitLines` produces exactly this decomposition.
-/

/-- Accumulating worker for `splitLines`; `acc` holds the bytes of the
current, still unterminated line in reverse. -/
def splitLinesAux : Bytes → Bytes → List Bytes
  | [], acc => if acc = [] then [] else [acc.reverse]
  | c :: r, acc =>
    if c = 10 then (acc.reverse ++ [10]) :: splitLinesAux r []
    else splitLinesAux r (c :: acc)

/-- The `readline()` decomposition of a byte file: every chunk ends with the
newline byte except possibly the last one, and no chunk is empty. -/
def splitLines (s : Bytes) : List Bytes :=
  splitLinesAux s []

/-- The marker line `b"PROBABLE CALL STACK:\n"`. -/
def probableMarker : Bytes := strBytes ("PROBABLE CALL STACK:\n")

/-- The marker line `b"REGISTERS:\n"`. -/
def registersMarker : Bytes := strBytes ("REGISTERS:\n")

/-- The in-memory document: three line segments plus the `changed` flag. -/
structure CrashLog where
  pre_call_stack : List Bytes
  call_stack : List Bytes
  post_call_stack : List Bytes
  changed : Bool
deriving DecidableEq

/-- First loop of `CrashLog.read_file`: every line is appended to
`pre_call_stack`, and the loop breaks after the `PROBABLE CALL STACK:` marker
line.  Returns the preamble and, unless EOF was hit first, the remaining
lines. -/
def readPhase1 : List Bytes → List Bytes × Option (List Bytes)
  | [] => ([], none)
  | l :: r =>
    if l = probableMarker then ([l], some r)
    else
      let p := readPhase1 r
      (l :: p.1, p.2)

/-- Second and third loops of `CrashLog.read_file`: call-stack lines are
collected until a blank line or the `REGISTERS:` marker (in the latter case a
blank line is inserted in front of the trailer); the terminator line and all
following lines form the trailer. -/
def readPhase2 : List Bytes → List Bytes × List Bytes
  | [] => ([], [])
  | l :: r =>
    if l = [10] then ([], l :: r)
    else if l = registersMarker then ([], [10] :: l :: r)
    else
      let p := readPhase2 r
      (l :: p.1, p.2)

/-- `CrashLog.read_file`, on the `readline()` decomposition of the file. -/
def CrashLog.read_file (lines : List Bytes) : CrashLog :=
  match readPhase1 lines with
  | (pre, none) => ⟨pre, [], [], false⟩
  | (pre, some rest) =>
    match readPhase2 rest with
    | (cs, post) => ⟨pre, cs, post, false⟩

/-- `CrashLog.write_file`: the bytes written back, namely the three segments
concatenated in order. -/
def CrashLog.writeBytes (cl : CrashLog) : Bytes :=
  (cl.pre_call_stack ++ cl.call_stack ++ cl.post_call_stack).flatten

/-- `CrashLog.rewrite_call_stack`: map the transform over the call stack; if
the result differs, install it and set `changed`; otherwise mutate
nothing. -/
def CrashLog.rewrite_call_stack (cl : CrashLog) (f : Bytes → Bytes) :
    CrashLog :=
  let new := cl.call_stack.map f
  if new ≠ cl.call_stack then
    ⟨cl.pre_call_stack, new, cl.post_call_stack, true⟩
  else cl

/-!
## The database scanner

`IdScanner` keeps one read cursor over the database file: `nextLine` plus the
still unread lines, modelled as the list of remaining lines (empty list =
EOF).  `__enter__` discards the first (header) line.  A database line is
parsed by `line.split()` (split on ASCII whitespace runs) into exactly two
tokens; anything else raises, which the model signals with `none`.
-/

/-- Bytes `bytes.split()` treats as whitespace. -/
def isPyWhitespace (c : Nat) : Bool :=
  c == 32 || c == 9 || c == 10 || c == 13 || c == 12 || c == 11

/-- Worker for `pySplit`; `acc` holds the current token in reverse. -/
def pySplitAux : Bytes → Bytes → List Bytes
  | [], acc => if acc = [] then [] else [acc.reverse]
  | c :: r, acc =>
    if isPyWhitespace c then
      if acc = [] then pySplitAux r [] else acc.reverse :: pySplitAux r []
    else pySplitAux r (c :: acc)

/-- `bytes.split()`: whitespace-separated tokens, no empty tokens. -/
def pySplit (s : Bytes) : List Bytes :=
  pySplitAux s []

/-- `int()` on a decimal-digit token (the only shape database ids take);
a token that is not a nonempty digit run is rejected. -/
def parseDigits (s : Bytes) : Option Nat :=
  if s ≠ [] ∧ ∀ c ∈ s, isDigitByte c then some (digitsToNat s) else none

/-- `line_id, name = tuple(line.split()); int(line_id)`: a database line
parses to an id and a name exactly when it splits into two tokens whose
first is a decimal number. -/
def parseDbLine (line : Bytes) : Option (Nat × Bytes) :=
  match pySplit line with
  | [a, b] =>
    match parseDigits a with
    | none => none
    | some i => some (i, b)
  | _ => none

/-- `IdScanner.find(addr_id)` on the scanner state (the list of unread lines
with `nextLine` in front).  `none` models a raised exception (unparseable
line); otherwise the result is the found name (if any) together with the new
scanner state.  On a hit the cursor stays on the matching line. -/
def IdScanner.find : List Bytes → Nat → Option (Option Bytes × List Bytes)
  | [], _ => some (none, [])
  | l :: rest, x =>
    match parseDbLine l with
    | none => none
    | some (i, n) =>
      if i = x then some (some n, l :: rest)
      else if x < i then some (none, l :: rest)
      else IdScanner.find rest x

/-- The loop body of `lookup_ids`: probe each id in order against the shared
scanner state, collecting `id → name` pairs for truthy (nonempty) names. -/
def lookupGo : List Bytes → List Nat → Option (List (Nat × Bytes))
  | _, [] => some []
  | s, x :: xs =>
    match IdScanner.find s x with
    | none => none
    | some (name?, s') =>
      match lookupGo s' xs with
      | none => none
      | some rest =>
        match name? with
        | none => some rest
        | some n => if n = [] then some rest else some ((x, n) :: rest)

/-- `CrashLogProcessor.lookup_ids`.  The database file is `none` when it does
not exist, otherwise its `readline()` lines; the scanner skips the header
line.  The resulting dictionary is the association list of resolved pairs (in
probe order); `none` models an exception escaping the scan. -/
def lookup_ids (db : Option (List Bytes)) (ids : List Nat) :
    Option (List (Nat × Bytes)) :=
  match db with
  | none => some []
  | some lines => lookupGo (lines.drop 1) ids

/-- `dict.get` on the association list produced by `lookup_ids`. -/
def dictGet : List (Nat × Bytes) → Nat → Option Bytes
  | [], _ => none
  | (k, v) :: r, i => if k = i then some v else dictGet r i

/-!
## The orchestration `process_log`
-/

/-- Ids of the matching call-stack lines, in line order, with duplicates. -/
def collectIds (cs : List Bytes) : List Nat :=
  cs.filterMap (fun l => (stackMatch l).map Prod.snd)

/-- The running `width = max(width, len(match.group(0)) + 1)` over the
call-stack lines, starting from 0. -/
def calcWidth (cs : List Bytes) : Nat :=
  cs.foldl
    (fun w l =>
      match stackMatch l with
      | none => w
      | some (g0, _) => max w (g0.length + 1)) 0

/-- `sorted(addr_ids)` for the set of collected ids: distinct values in
ascending order. -/
def sortedIds (cs : List Bytes) : List Nat :=
  List.insertionSort (· ≤ ·) (collectIds cs).dedup

/-- The document `process_log` holds when it reaches its final `if`: read,
optionally rewritten.  `none` models an exception raised while scanning the
database. -/
def processDoc (fileBytes : Bytes) (db : Option (List Bytes)) :
    Option CrashLog :=
  let cl := CrashLog.read_file (splitLines fileBytes)
  let ids := sortedIds cl.call_stack
  if ids = [] then some cl
  else
    match lookup_ids db ids with
    | none => none
    | some lk =>
      if lk = [] then some cl
      else
        some (cl.rewrite_call_stack
          (fun l => add_name l (dictGet lk) (calcWidth cl.call_stack)))

/-- Observable file-system effects of `process_log`, in order. -/
inductive Ev (α : Type) where
  | delete : α → Ev α
  | write : α → Bytes → Ev α
deriving DecidableEq

/-- `CrashLogProcessor.process_log`: the ordered effects performed on the
log file at path `p`, given the log's bytes and the database lines (`none`
when the database file does not exist).  `none` models a raised exception
(which performs neither effect). -/
def process_log (p : α) (fileBytes : Bytes) (db : Option (List Bytes)) :
    Option (List (Ev α)) :=
  (processDoc fileBytes db).map
    (fun cl =>
      if cl.changed then [Ev.delete p, Ev.write p cl.writeBytes] else [])

example :
    splitLines (strBytes ("ab\n\ncd")) =
      [strBytes ("ab\n"), [10], strBytes ("cd")] := by decide

example :
    CrashLog.read_file (splitLines (strBytes
        ("head\nPROBABLE CALL STACK:\nX\nREGISTERS:\nr1\n"))) =
      ⟨[strBytes ("head\n"), probableMarker], [strBytes ("X\n")],
        [[10], registersMarker, strBytes ("r1\n")], false⟩ := by decide

example :
    lookup_ids (some [strBytes ("hdr\n"), strBytes ("5 a\n"),
        strBytes ("10 b\n"), strBytes ("20 c\n")]) [10, 20] =
      some [(10, [98]), (20, [99])] := by decide

example :
    IdScanner.find [strBytes ("5 a\n")] 5 =
      some (some [97], [strBytes ("5 a\n")]) := by decide

/-!
## Basic lemmas
-/

theorem read_file_changed (lines : List Bytes) :
    (CrashLog.read_file lines).changed = false := by
  unfold CrashLog.read_file
  rcases h : readPhase1 lines with ⟨pre, o⟩
  cases o with
  | none => rfl
  | some rest => rcases h2 : readPhase2 rest with ⟨cs, post⟩; rfl

theorem calcWidthStep_le (a : Nat) (l : Bytes) :
    a ≤ match stackMatch l with
        | none => a
        | some (g0, _) => max a (g0.length + 1) := by
  rcases stackMatch l with _ | ⟨g0, i⟩
  · exact Nat.le_refl a
  · exact Nat.le_max_left _ _

theorem calcWidth_foldl_le (cs : List Bytes) (a : Nat) :
    a ≤ cs.foldl
      (fun w l =>
        match stackMatch l with
        | none => w
        | some (g0, _) => max w (g0.length + 1)) a := by
  induction cs generalizing a with
  | nil => exact Nat.le_refl a
  | cons l rest ih =>
    refine Nat.le_trans (calcWidthStep_le a l) ?_
    exact ih _

theorem calcWidth_ge (cs : List Bytes) (line g0 : Bytes) (i : Nat)
    (hmem : line ∈ cs) (hm : stackMatch line = some (g0, i)) :
    g0.length + 1 ≤ calcWidth cs := by
  unfold calcWidth
  generalize 0 = a
  induction cs generalizing a with
  | nil => cases hmem
  | cons l rest ih =>
    rcases List.mem_cons.mp hmem with h | h
    · subst h
      refine Nat.le_trans ?_ (calcWidth_foldl_le rest _)
      simp only [List.foldl_cons]
      rw [hm]
      exact Nat.le_max_right _ _
    · exact ih h _

/-!
## Claim C8: `rewrite_call_stack` and the `changed` flag
-/

/-- C8: starting from a freshly-read document (`changed = false`), after
`rewrite_call_stack f` the `changed` flag is true exactly when mapping `f`
over the original call stack yields a different list; when the two lists are
equal the whole document (call stack and flag included) is unchanged. -/
theorem rewrite_call_stack_changed_iff (cl : CrashLog) (f : Bytes → Bytes)
    (h : cl.changed = false) :
    ((cl.rewrite_call_stack f).changed = true ↔
      cl.call_stack.map f ≠ cl.call_stack) ∧
    (cl.call_stack.map f = cl.call_stack → cl.rewrite_call_stack f = cl) := by
  unfold CrashLog.rewrite_call_stack
  by_cases heq : cl.call_stack.map f = cl.call_stack
  · simp [heq, h]
  · simp [heq]

/-- Witness for C8 at a concrete document and transform. -/
theorem rewrite_call_stack_changed_iff_witness :
    CrashLog.rewrite_call_stack ⟨[], [[97]], [], false⟩ (fun l => l) =
      ⟨[], [[97]], [], false⟩ :=
  (rewrite_call_stack_changed_iff ⟨[], [[97]], [], false⟩ (fun l => l)
    rfl).2 (by decide)

/-!
## Claim C7: effect order of `process_log`
-/

/-- C7: whenever `process_log` runs to completion and the document's
`changed` flag is true, the emitted effects are exactly one deletion of the
original path followed by one write of the new content to the same path; when
the flag stayed false, no effect is emitted. -/
theorem process_log_effects {α : Type} (p : α) (fb : Bytes)
    (db : Option (List Bytes)) (cl : CrashLog)
    (h : processDoc fb db = some cl) :
    (cl.changed = true →
      process_log p fb db = some [Ev.delete p, Ev.write p cl.writeBytes]) ∧
    (cl.changed = false → process_log p fb db = some []) := by
  unfold process_log
  rw [h]
  constructor <;> intro hc <;> simp [hc]

/-- Witness for C7: a log whose single stack line resolves, so the document
changes and the delete is emitted before the write. -/
theorem process_log_effects_witness :
    process_log (0 : Nat)
        (strBytes ("PROBABLE CALL STACK:\n\t[ 0] 0xA B+C -> 5+0xD\n"))
        (some [strBytes ("h\n"), strBytes ("5 Name\n")]) =
      some [Ev.delete 0, Ev.write 0
        (CrashLog.writeBytes ⟨[probableMarker],
          [strBytes ("\t[ 0] 0xA B+C -> 5+0xD Name\n")], [], true⟩)] :=
  (process_log_effects (0 : Nat)
    (strBytes ("PROBABLE CALL STACK:\n\t[ 0] 0xA B+C -> 5+0xD\n"))
    (some [strBytes ("h\n"), strBytes ("5 Name\n")])
    ⟨[probableMarker], [strBytes ("\t[ 0] 0xA B+C -> 5+0xD Name\n")], [],
      true⟩ (by decide)).1 rfl

/-!
## Claim C2: unresolved ids keep the full matched text
-/

/-- C2 counterexample: for a matched line whose id 5 is absent from the
lookup, `add_name` returns the **entire** matched text plus a newline — the
`" -> 5+0xD"` tail is kept, not dropped as the claim states. -/
theorem add_name_unresolved_cex :
    add_name (strBytes ("\t[ 0] 0xA B+C -> 5+0xD\n")) (fun _ => none) 0 =
        strBytes ("\t[ 0] 0xA B+C -> 5+0xD") ++ [10] ∧
    add_name (strBytes ("\t[ 0] 0xA B+C -> 5+0xD\n")) (fun _ => none) 0 ≠
        strBytes ("\t[ 0] 0xA B+C") ++ [10] := by
  exact ⟨by decide, by decide⟩

/-- C2 amended: for a matched line whose id is not in the lookup, `add_name`
returns the whole matched byte run (`match.group(0)`, which still contains
the `" -> id+0x.."` tail) followed by a newline; only the bytes after the
match are dropped. -/
theorem add_name_unresolved (line : Bytes) (lk : Nat → Option Bytes)
    (w : Nat) (g0 : Bytes) (i : Nat)
    (hm : stackMatch line = some (g0, i)) (hl : lk i = none) :
    add_name line lk w = g0 ++ [10] := by
  simp [add_name, hm, hl]

/-- Witness for the amended C2 at a concrete line and empty lookup. -/
theorem add_name_unresolved_witness :
    add_name (strBytes ("\t[ 0] 0xA B+C -> 5+0xD\n")) (fun _ => none) 7 =
      strBytes ("\t[ 0] 0xA B+C -> 5+0xD") ++ [10] :=
  add_name_unresolved (strBytes ("\t[ 0] 0xA B+C -> 5+0xD\n"))
    (fun _ => none) 7 (strBytes ("\t[ 0] 0xA B+C -> 5+0xD")) 5
    (by decide) rfl

/-!
## Claim C5: resolved ids pad the full matched text
-/

/-- C5 counterexample: a resolved line is padded on the **entire** matched
text (`match.group(0)`, suffix included), not on the frame-text up to the
`" -> "`; with the batch width of its own call stack the result differs from
the claimed output. -/
theorem add_name_resolved_cex :
    add_name (strBytes ("\t[ 0] 0xA B+C -> 5+0xD\n"))
        (fun i => if i = 5 then some (strBytes ("E_")) else none)
        (calcWidth [strBytes ("\t[ 0] 0xA B+C -> 5+0xD\n")]) =
      ljust (strBytes ("\t[ 0] 0xA B+C -> 5+0xD"))
        (calcWidth [strBytes ("\t[ 0] 0xA B+C -> 5+0xD\n")]) ++ [69] ++
        [10] ∧
    add_name (strBytes ("\t[ 0] 0xA B+C -> 5+0xD\n"))
        (fun i => if i = 5 then some (strBytes ("E_")) else none)
        (calcWidth [strBytes ("\t[ 0] 0xA B+C -> 5+0xD\n")]) ≠
      ljust (strBytes ("\t[ 0] 0xA B+C"))
        (calcWidth [strBytes ("\t[ 0] 0xA B+C -> 5+0xD\n")]) ++ [69] ++
        [10] := by
  exact ⟨by decide, by decide⟩

/-- C5 amended: for a line of the call stack that matches and resolves to a
nonempty name, `add_name` with the batch width (one more than the longest
match over the whole call stack) returns the whole matched byte run
right-padded with spaces to that width — so at least one space is appended —
followed by the name with trailing `_`/`*` stripped, and a newline. -/
theorem add_name_resolved (cs : List Bytes) (line : Bytes)
    (lk : Nat → Option Bytes) (g0 : Bytes) (i : Nat) (n : Bytes)
    (hmem : line ∈ cs) (hm : stackMatch line = some (g0, i))
    (hl : lk i = some n) (hn : n ≠ []) :
    add_name line lk (calcWidth cs) =
        ljust g0 (calcWidth cs) ++ rstripUS n ++ [10] ∧
    g0.length < calcWidth cs := by
  constructor
  · simp [add_name, hm, hl, hn]
  · exact Nat.lt_of_succ_le (calcWidth_ge cs line g0 i hmem hm)

/-- Witness for the amended C5 at a concrete call stack and database name. -/
theorem add_name_resolved_witness :
    add_name (strBytes ("\t[ 0] 0xA B+C -> 5+0xD\n"))
        (fun i => if i = 5 then some (strBytes ("E_")) else none)
        (calcWidth [strBytes ("\t[ 0] 0xA B+C -> 5+0xD\n")]) =
      ljust (strBytes ("\t[ 0] 0xA B+C -> 5+0xD"))
        (calcWidth [strBytes ("\t[ 0] 0xA B+C -> 5+0xD\n")]) ++ [69] ++
        [10] := by
  have h := add_name_resolved [strBytes ("\t[ 0] 0xA B+C -> 5+0xD\n")]
    (strBytes ("\t[ 0] 0xA B+C -> 5+0xD\n"))
    (fun i => if i = 5 then some (strBytes ("E_")) else none)
    (strBytes ("\t[ 0] 0xA B+C -> 5+0xD")) 5 (strBytes ("E_"))
    (by decide) (by decide) (by decide) (by decide)
  rw [h.1]
  decide

/-!
## Claim C4: probe order and the scanner cursor
-/

/-- C4 counterexample: probing the same id twice in a row **does** find the
name both times — on a hit the cursor stays on the matching line, so the
duplicate probe (run on the state the first probe returned) succeeds again,
contradicting the claim that a duplicate probe never finds a name. -/
theorem find_duplicate_cex :
    (IdScanner.find [strBytes ("5 a\n")] 5).bind
        (fun rs => IdScanner.find rs.2 5) =
      some (some [97], [strBytes ("5 a\n")]) := by decide

/-- C4 amended: a probe strictly smaller than an earlier probe never finds a
name, even when the database contains that id: after any completed probe of
`x`, probing any `y < x` returns no name and leaves the cursor untouched
(so every further smaller probe fails the same way).  A duplicate probe, by
contrast, can still succeed because a hit does not advance the cursor. -/
theorem find_smaller_never_found (s s' : List Bytes) (x y : Nat)
    (r : Option Bytes) (h : IdScanner.find s x = some (r, s')) (hyx : y < x) :
    IdScanner.find s' y = some (none, s') := by
  have hstate : s' = [] ∨
      ∃ l rest i n, s' = l :: rest ∧ parseDbLine l = some (i, n) ∧ x ≤ i := by
    clear hyx
    induction s generalizing r with
    | nil =>
      unfold IdScanner.find at h
      exact Or.inl (congrArg Prod.snd (Option.some.inj h)).symm
    | cons l rest ih =>
      rcases hp : parseDbLine l with _ | ⟨i, n⟩
      · simp [IdScanner.find, hp] at h
      · simp only [IdScanner.find, hp] at h
        by_cases hix : i = x
        · rw [if_pos hix] at h
          refine Or.inr ⟨l, rest, i, n, ?_, hp, Nat.le_of_eq hix.symm⟩
          exact (congrArg Prod.snd (Option.some.inj h)).symm
        · rw [if_neg hix] at h
          by_cases hlt : x < i
          · rw [if_pos hlt] at h
            refine Or.inr ⟨l, rest, i, n, ?_, hp, Nat.le_of_lt hlt⟩
            exact (congrArg Prod.snd (Option.some.inj h)).symm
          · rw [if_neg hlt] at h
            exact ih _ h
  rcases hstate with h0 | ⟨l, rest, i, n, hs, hp, hxi⟩
  · subst h0; rfl
  · subst hs
    have hiy : ¬ i = y := by omega
    have hyi : y < i := by omega
    simp only [IdScanner.find, hp]
    rw [if_neg hiy, if_pos hyi]

/-- Witness for the amended C4: after probing 10, probing 5 finds nothing
although the database contains id 5. -/
theorem find_smaller_never_found_witness :
    IdScanner.find [strBytes ("10 b\n")] 5 =
      some (none, [strBytes ("10 b\n")]) :=
  find_smaller_never_found
    [strBytes ("5 a\n"), strBytes ("10 b\n")] [strBytes ("10 b\n")]
    10 5 (some [98]) (by decide) (by decide)

/-!
## Claim C6: conditions under which `process_log` does nothing
-/

/-- C6: if no call-stack line matches the stack-frame pattern, or the
database file does not exist, or the resolution mapping comes back empty,
`process_log` emits no effect at all: the file is neither deleted nor
rewritten. -/
theorem process_log_noop {α : Type} (p : α) (fb : Bytes)
    (db : Option (List Bytes))
    (h : (∀ l ∈ (CrashLog.read_file (splitLines fb)).call_stack,
            stackMatch l = none)
       ∨ db = none
       ∨ lookup_ids db
            (sortedIds (CrashLog.read_file (splitLines fb)).call_stack) =
          some []) :
    process_log p fb db = some [] := by
  have hch := read_file_changed (splitLines fb)
  by_cases hids :
      sortedIds (CrashLog.read_file (splitLines fb)).call_stack = []
  · simp [process_log, processDoc, hids, hch]
  · rcases h with h | h | h
    · exfalso
      apply hids
      have hc : collectIds (CrashLog.read_file (splitLines fb)).call_stack
          = [] := by
        unfold collectIds
        rw [List.filterMap_eq_nil_iff]
        intro a ha
        rw [h a ha]
        rfl
      unfold sortedIds
      rw [hc]
      rfl
    · subst h
      simp [process_log, processDoc, hids, lookup_ids, hch]
    · simp [process_log, processDoc, hids, h, hch]

/-- Witness for C6: a log with no call-stack marker at all is left alone. -/
theorem process_log_noop_witness :
    process_log (0 : Nat) (strBytes ("hello\nworld\n"))
      (some [strBytes ("h\n"), strBytes ("5 a\n")]) = some [] :=
  process_log_noop (0 : Nat) (strBytes ("hello\nworld\n"))
    (some [strBytes ("h\n"), strBytes ("5 a\n")])
    (Or.inl (by decide))

/-!
## Claim C3: segmentation round trip
-/

theorem splitLinesAux_flatten (s acc : Bytes) :
    (splitLinesAux s acc).flatten = acc.reverse ++ s := by
  induction s generalizing acc with
  | nil => by_cases h : acc = [] <;> simp [splitLinesAux, h]
  | cons c r ih =>
    by_cases h : c = 10
    · subst h
      simp [splitLinesAux, ih]
    · simp [splitLinesAux, h, ih]

/-- Concatenating the `readline()` chunks reproduces the file. -/
theorem splitLines_flatten (s : Bytes) : (splitLines s).flatten = s := by
  simpa using splitLinesAux_flatten s []

theorem readPhase1_none (ls pre : List Bytes)
    (h : readPhase1 ls = (pre, none)) : pre = ls := by
  induction ls generalizing pre with
  | nil =>
    simp only [readPhase1] at h
    injection h with h1 _
    exact h1.symm
  | cons l r ih =>
    by_cases hm : l = probableMarker
    · simp [readPhase1, hm] at h
    · rcases hr : readPhase1 r with ⟨p1, o1⟩
      simp only [readPhase1, if_neg hm, hr] at h
      injection h with h1 h2
      rw [h2] at hr
      rw [← h1, ih _ hr]

/-- Converse of the first read loop: a successful phase 1 exhibits the
preamble as everything up to and including the **first** occurrence of the
`PROBABLE CALL STACK:` marker line. -/
theorem readPhase1_some_decomp (ls pre rest : List Bytes)
    (h : readPhase1 ls = (pre, some rest)) :
    ∃ p, pre = p ++ [probableMarker] ∧ probableMarker ∉ p ∧
      ls = p ++ (probableMarker :: rest) := by
  induction ls generalizing pre with
  | nil =>
    simp only [readPhase1] at h
    injection h with _ h2
    cases h2
  | cons l r ih =>
    by_cases hm : l = probableMarker
    · simp only [readPhase1, if_pos hm] at h
      injection h with h1 h2
      refine ⟨[], ?_, by simp, ?_⟩
      · rw [← h1, hm]
        rfl
      · rw [hm, Option.some.inj h2]
        rfl
    · rcases hr : readPhase1 r with ⟨p1, o1⟩
      simp only [readPhase1, if_neg hm, hr] at h
      injection h with h1 h2
      rw [h2] at hr
      obtain ⟨p, hp, hnp, hls⟩ := ih _ hr
      refine ⟨l :: p, ?_, ?_, ?_⟩
      · rw [← h1, hp]
        rfl
      · intro hmem
        rcases List.mem_cons.mp hmem with heq | hmem
        · exact hm heq.symm
        · exact hnp hmem
      · rw [hls]
        rfl

/-- The first read loop on a file whose first marker line is preceded by
`p`: the preamble is `p` plus the marker, the rest is handed to phase 2. -/
theorem readPhase1_first_marker (p r : List Bytes)
    (hnp : probableMarker ∉ p) :
    readPhase1 (p ++ (probableMarker :: r)) =
      (p ++ [probableMarker], some r) := by
  induction p with
  | nil => simp [readPhase1]
  | cons a p' ih =>
    have ha : ¬ a = probableMarker := by
      intro h
      exact hnp (by rw [h]; exact List.mem_cons_self _ _)
    have ih' := ih (fun h => hnp (List.mem_cons_of_mem a h))
    simp [readPhase1, ha, ih']

/-- Converse of the second read loop: the collected call-stack lines are
terminator-free, and the input is the call stack followed by nothing (EOF),
by a blank line kept as-is, or by a `REGISTERS:` line with a blank line
pushed in front of it. -/
theorem readPhase2_cases (r : List Bytes) :
    (∀ l ∈ (readPhase2 r).1, l ≠ [10] ∧ l ≠ registersMarker) ∧
    ((readPhase2 r).2 = [] ∧ r = (readPhase2 r).1 ∨
     (∃ rest, r = (readPhase2 r).1 ++ ([10] :: rest) ∧
        (readPhase2 r).2 = [10] :: rest) ∨
     (∃ rest, r = (readPhase2 r).1 ++ (registersMarker :: rest) ∧
        (readPhase2 r).2 = [10] :: registersMarker :: rest)) := by
  induction r with
  | nil => exact ⟨by simp [readPhase2], Or.inl ⟨rfl, rfl⟩⟩
  | cons l r' ih =>
    by_cases h1 : l = [10]
    · subst h1
      refine ⟨by simp [readPhase2], Or.inr (Or.inl ⟨r', ?_, ?_⟩)⟩
      · simp [readPhase2]
      · simp [readPhase2]
    · by_cases h2 : l = registersMarker
      · subst h2
        refine ⟨by simp [readPhase2, h1], Or.inr (Or.inr ⟨r', ?_, ?_⟩)⟩
        · simp [readPhase2, h1]
        · simp [readPhase2, h1]
      · obtain ⟨ihcs, ihcase⟩ := ih
        have hv1 : (readPhase2 (l :: r')).1 = l :: (readPhase2 r').1 := by
          simp [readPhase2, h1, h2]
        have hv2 : (readPhase2 (l :: r')).2 = (readPhase2 r').2 := by
          simp [readPhase2, h1, h2]
        rw [hv1, hv2]
        constructor
        · intro x hx
          rcases List.mem_cons.mp hx with heq | hx
          · rw [heq]
            exact ⟨h1, h2⟩
          · exact ihcs x hx
        · rcases ihcase with ⟨hpost, hrest⟩ | ⟨rest, hr, hpost⟩ |
            ⟨rest, hr, hpost⟩
          · exact Or.inl ⟨hpost, congrArg (fun t => l :: t) hrest⟩
          · refine Or.inr (Or.inl ⟨rest, ?_, hpost⟩)
            rw [List.cons_append]
            exact congrArg (fun t => l :: t) hr
          · refine Or.inr (Or.inr ⟨rest, ?_, hpost⟩)
            rw [List.cons_append]
            exact congrArg (fun t => l :: t) hr

/-- The second read loop on a terminator-free call stack followed directly
by the `REGISTERS:` line: the blank line is pushed in front of the
trailer. -/
theorem readPhase2_reg (cs rest : List Bytes)
    (hcs : ∀ l ∈ cs, l ≠ [10] ∧ l ≠ registersMarker) :
    readPhase2 (cs ++ (registersMarker :: rest)) =
      (cs, [10] :: registersMarker :: rest) := by
  induction cs with
  | nil =>
    have h10 : ¬ registersMarker = [10] := by decide
    simp [readPhase2, h10]
  | cons l cs' ih =>
    obtain ⟨h1, h2⟩ := hcs l (List.mem_cons_self _ _)
    have ih' := ih (fun x hx => hcs x (List.mem_cons_of_mem l hx))
    simp [readPhase2, h1, h2, ih']

/-- The input shape on which the round trip is not the identity: the file
has a `PROBABLE CALL STACK:` marker line (`p` is everything before the first
one), and the lines after it reach a `REGISTERS:` line before any blank
line or EOF. -/
def RegTerminated (lines : List Bytes) : Prop :=
  ∃ p cs rest,
    lines = p ++ (probableMarker :: (cs ++ (registersMarker :: rest))) ∧
    probableMarker ∉ p ∧ ∀ l ∈ cs, l ≠ [10] ∧ l ≠ registersMarker

theorem regTerminated_marker_mem (lines : List Bytes)
    (h : RegTerminated lines) : probableMarker ∈ lines := by
  obtain ⟨p, cs, rest, hdec, _, _⟩ := h
  rw [hdec]
  simp

/-- C3 counterexample: when the call stack is terminated directly by the
`REGISTERS:` line (no blank line), reading and reserializing inserts one
extra blank line: the round trip is not byte-identical. -/
theorem read_write_roundtrip_cex :
    (CrashLog.read_file (splitLines (strBytes
        ("PROBABLE CALL STACK:\nX\nREGISTERS:\nr\n")))).writeBytes =
      strBytes ("PROBABLE CALL STACK:\nX\n\nREGISTERS:\nr\n") ∧
    (CrashLog.read_file (splitLines (strBytes
        ("PROBABLE CALL STACK:\nX\nREGISTERS:\nr\n")))).writeBytes ≠
      strBytes ("PROBABLE CALL STACK:\nX\nREGISTERS:\nr\n") :=
  ⟨by decide, by decide⟩

/-- C3 amended: segmenting any file and reserializing without a rewrite
reproduces the input byte-for-byte whenever the call-stack section is
**not** terminated directly by a `REGISTERS:\n` line (no marker, truncated
file, or a blank-line-terminated call stack — wherever else `REGISTERS:\n`
may occur); and exactly when the lines after the first
`PROBABLE CALL STACK:\n` marker reach `REGISTERS:\n` before any blank line,
the output is the input with a single `\n` inserted immediately before that
terminating `REGISTERS:\n` line. -/
theorem read_write_roundtrip (s : Bytes) :
    (¬ RegTerminated (splitLines s) →
      (CrashLog.read_file (splitLines s)).writeBytes = s) ∧
    (∀ p cs rest,
      splitLines s =
        p ++ (probableMarker :: (cs ++ (registersMarker :: rest))) →
      probableMarker ∉ p →
      (∀ l ∈ cs, l ≠ [10] ∧ l ≠ registersMarker) →
      s = (p ++ probableMarker :: cs).flatten ++ registersMarker
          ++ rest.flatten ∧
      (CrashLog.read_file (splitLines s)).writeBytes =
        (p ++ probableMarker :: cs).flatten ++ [10] ++ registersMarker
          ++ rest.flatten) := by
  constructor
  · intro hreg
    rcases hp1 : readPhase1 (splitLines s) with ⟨pre, o⟩
    cases o with
    | none =>
      have hpre := readPhase1_none _ _ hp1
      simp only [CrashLog.read_file, hp1, CrashLog.writeBytes]
      rw [hpre]
      simpa using splitLines_flatten s
    | some rest =>
      obtain ⟨p, hpq, hnp, hls⟩ := readPhase1_some_decomp _ _ _ hp1
      obtain ⟨hcs, hcase⟩ := readPhase2_cases rest
      rcases hp2 : readPhase2 rest with ⟨cs, post⟩
      rw [hp2] at hcs hcase
      simp only at hcs hcase
      have hs := splitLines_flatten s
      rw [hls] at hs
      rcases hcase with ⟨hpost, hrest⟩ | ⟨rest', hr, hpost⟩ |
        ⟨rest', hr, hpost⟩
      · simp only [CrashLog.read_file, hp1, hp2, CrashLog.writeBytes]
        rw [hpost, hpq, ← hs, hrest]
        simp [List.flatten_append]
      · simp only [CrashLog.read_file, hp1, hp2, CrashLog.writeBytes]
        rw [hpost, hpq, ← hs, hr]
        simp [List.flatten_append]
      · exact absurd ⟨p, cs, rest', by rw [hls, hr], hnp, hcs⟩ hreg
  · intro p cs rest hdec hnp hcs
    have h1 := readPhase1_first_marker p (cs ++ (registersMarker :: rest))
      hnp
    have h2 := readPhase2_reg cs rest hcs
    constructor
    · have hs := splitLines_flatten s
      rw [hdec] at hs
      rw [← hs]
      simp [List.flatten_append, List.flatten_cons, List.append_assoc]
    · rw [hdec]
      simp only [CrashLog.read_file, h1, h2, CrashLog.writeBytes]
      simp [List.flatten_append, List.flatten_cons, List.append_assoc]

/-- Witness for the amended C3: a marker-free log round-trips byte-for-byte
(first part), and a `REGISTERS:`-terminated log gains exactly one blank
line in front of the terminating `REGISTERS:` line (second part). -/
theorem read_write_roundtrip_witness :
    (CrashLog.read_file (splitLines
        (strBytes ("hello\nworld\n")))).writeBytes =
      strBytes ("hello\nworld\n") ∧
    (strBytes ("PROBABLE CALL STACK:\nX\nREGISTERS:\nr\n") =
        ([] ++ probableMarker :: [strBytes ("X\n")]).flatten
          ++ registersMarker ++ [strBytes ("r\n")].flatten ∧
      (CrashLog.read_file (splitLines (strBytes
          ("PROBABLE CALL STACK:\nX\nREGISTERS:\nr\n")))).writeBytes =
        ([] ++ probableMarker :: [strBytes ("X\n")]).flatten ++ [10]
          ++ registersMarker ++ [strBytes ("r\n")].flatten) :=
  ⟨(read_write_roundtrip (strBytes ("hello\nworld\n"))).1
      (fun h => absurd (regTerminated_marker_mem _ h) (by decide)),
   (read_write_roundtrip
      (strBytes ("PROBABLE CALL STACK:\nX\nREGISTERS:\nr\n"))).2
      [] [strBytes ("X\n")] [strBytes ("r\n")]
      (by decide) (by decide) (by decide)⟩

/-!
## Decomposing a successful match
-/

theorem lit_append_eq (l s r : Bytes) (h : lit l s = some r) : s = l ++ r := by
  induction l generalizing s with
  | nil =>
    simp only [lit] at h
    rw [Option.some.inj h]
    rfl
  | cons c l' ih =>
    cases s with
    | nil => simp [lit] at h
    | cons d s' =>
      simp only [lit] at h
      by_cases hd : d = c
      · rw [if_pos hd] at h
        rw [hd, List.cons_append, ← ih _ h]
      · rw [if_neg hd] at h
        cases h

theorem plusRun_eq (p : Nat → Bool) (s t r : Bytes)
    (h : plusRun p s = some (t, r)) :
    s = t ++ r ∧ t ≠ [] ∧ ∀ c ∈ t, p c = true := by
  unfold plusRun at h
  by_cases he : s.takeWhile p = []
  · rw [if_pos he] at h
    cases h
  · rw [if_neg he] at h
    injection h with h'
    injection h' with h1 h2
    subst h1
    subst h2
    exact ⟨(List.takeWhile_append_dropWhile p s).symm, he,
      fun c hc => List.mem_takeWhile_imp hc⟩

theorem matchTail_eq (s b : Bytes) (idv : Nat)
    (h : matchTail s = some (b, idv)) :
    ∃ hx1 d hx2 r, s = b ++ r ∧
      b = [43] ++ hx1 ++ [32, 45, 62, 32] ++ d ++ [43, 48, 120] ++ hx2 ∧
      hx1 ≠ [] ∧ (∀ c ∈ hx1, isHexUByte c = true) ∧
      d ≠ [] ∧ (∀ c ∈ d, isDigitByte c = true) ∧
      hx2 ≠ [] ∧ (∀ c ∈ hx2, isHexUByte c = true) ∧ idv = digitsToNat d := by
  unfold matchTail at h
  rcases e1 : lit [43] s with _ | r1
  · simp [e1] at h
  simp only [e1] at h
  rcases e2 : plusRun isHexUByte r1 with _ | ⟨hx1, r2⟩
  · simp [e2] at h
  simp only [e2] at h
  rcases e3 : lit [32, 45, 62, 32] r2 with _ | r3
  · simp [e3] at h
  simp only [e3] at h
  rcases e4 : plusRun isDigitByte r3 with _ | ⟨d, r4⟩
  · simp [e4] at h
  simp only [e4] at h
  rcases e5 : lit [43, 48, 120] r4 with _ | r5
  · simp [e5] at h
  simp only [e5] at h
  rcases e6 : plusRun isHexUByte r5 with _ | ⟨hx2, r6⟩
  · simp [e6] at h
  simp only [e6] at h
  injection h with h'
  injection h' with hb hid
  obtain ⟨q1, _, _⟩ := plusRun_eq _ _ _ _ e2
  obtain ⟨q2, _, _⟩ := plusRun_eq _ _ _ _ e4
  obtain ⟨q3, _, _⟩ := plusRun_eq _ _ _ _ e6
  refine ⟨hx1, d, hx2, r6, ?_, hb.symm, ?_, ?_, ?_, ?_, ?_, ?_, hid.symm⟩
  · rw [lit_append_eq _ _ _ e1, q1, lit_append_eq _ _ _ e3, q2,
      lit_append_eq _ _ _ e5, q3, ← hb]
    simp [List.append_assoc]
  all_goals first
    | exact (plusRun_eq _ _ _ _ e2).2.1
    | exact (plusRun_eq _ _ _ _ e2).2.2
    | exact (plusRun_eq _ _ _ _ e4).2.1
    | exact (plusRun_eq _ _ _ _ e4).2.2
    | exact (plusRun_eq _ _ _ _ e6).2.1
    | exact (plusRun_eq _ _ _ _ e6).2.2

theorem starScan_eq (s pre : Bytes) (t : Bytes × Nat)
    (h : starScan s = some (pre, t)) :
    ∃ suf, s = pre ++ suf ∧ (∀ c ∈ pre, c ≠ 10) ∧ matchTail suf = some t := by
  induction s generalizing pre with
  | nil =>
    simp only [starScan] at h
    rcases e : matchTail [] with _ | t'
    · simp [e] at h
    simp only [e] at h
    injection h with h'
    injection h' with h1 h2
    subst h1
    subst h2
    exact ⟨[], rfl, by simp, e⟩
  | cons c rest ih =>
    simp only [starScan] at h
    by_cases hc : c = 10
    · rw [if_pos hc] at h
      rcases e : matchTail (c :: rest) with _ | t'
      · simp [e] at h
      simp only [e] at h
      injection h with h'
      injection h' with h1 h2
      subst h1
      subst h2
      exact ⟨c :: rest, rfl, by simp, e⟩
    · rw [if_neg hc] at h
      rcases e : starScan rest with _ | ⟨p', t'⟩
      · simp only [e] at h
        rcases e2 : matchTail (c :: rest) with _ | t2
        · simp [e2] at h
        simp only [e2] at h
        injection h with h'
        injection h' with h1 h2
        subst h1
        subst h2
        exact ⟨c :: rest, rfl, by simp, e2⟩
      · simp only [e] at h
        injection h with h'
        injection h' with h1 h2
        subst h2
        obtain ⟨suf, hs, hno, hm⟩ := ih p' e
        refine ⟨suf, ?_, ?_, hm⟩
        · rw [← h1, List.cons_append, ← hs]
        · intro x hx
          rw [← h1] at hx
          rcases List.mem_cons.mp hx with hx | hx
          · rw [hx]; exact hc
          · exact hno x hx

theorem stackMatch_eq (line g0 : Bytes) (i : Nat)
    (h : stackMatch line = some (g0, i)) :
    ∃ sp d1 hx1 mid hx2 d2 hx3 rest,
      line = g0 ++ rest ∧
      g0 = [9, 91] ++ sp ++ d1 ++ [93, 32, 48, 120] ++ hx1 ++ [32] ++ mid
        ++ ([43] ++ hx2 ++ [32, 45, 62, 32] ++ d2 ++ [43, 48, 120] ++ hx3) ∧
      (∀ c ∈ sp, c = 32) ∧
      d1 ≠ [] ∧ (∀ c ∈ d1, isDigitByte c = true) ∧
      hx1 ≠ [] ∧ (∀ c ∈ hx1, isHexUByte c = true) ∧
      (∀ c ∈ mid, c ≠ 10) ∧
      hx2 ≠ [] ∧ (∀ c ∈ hx2, isHexUByte c = true) ∧
      d2 ≠ [] ∧ (∀ c ∈ d2, isDigitByte c = true) ∧
      hx3 ≠ [] ∧ (∀ c ∈ hx3, isHexUByte c = true) ∧
      i = digitsToNat d2 := by
  unfold stackMatch at h
  rcases e1 : lit [9, 91] line with _ | r1
  · simp [e1] at h
  simp only [e1] at h
  rcases e2 : plusRun isDigitByte (r1.dropWhile isSpaceByte) with _ | ⟨d1, r3⟩
  · simp [e2] at h
  simp only [e2] at h
  rcases e3 : lit [93, 32, 48, 120] r3 with _ | r4
  · simp [e3] at h
  simp only [e3] at h
  rcases e4 : plusRun isHexUByte r4 with _ | ⟨hx1, r5⟩
  · simp [e4] at h
  simp only [e4] at h
  rcases e5 : lit [32] r5 with _ | r6
  · simp [e5] at h
  simp only [e5] at h
  rcases e6 : starScan r6 with _ | ⟨mid, tl, idv⟩
  · simp [e6] at h
  simp only [e6] at h
  injection h with h'
  injection h' with hg hid
  obtain ⟨suf, hsuf, hmid, hmt⟩ := starScan_eq _ _ _ e6
  obtain ⟨hx2, d2, hx3, r7, hsuf2, htl, hx2ne, hx2h, d2ne, d2d, hx3ne, hx3h,
    hidv⟩ := matchTail_eq _ _ _ hmt
  obtain ⟨q2, d1ne, d1d⟩ := plusRun_eq _ _ _ _ e2
  obtain ⟨q4, hx1ne, hx1h⟩ := plusRun_eq _ _ _ _ e4
  refine ⟨r1.takeWhile isSpaceByte, d1, hx1, mid, hx2, d2, hx3, r7,
    ?_, ?_, ?_, d1ne, d1d, hx1ne, hx1h, hmid, hx2ne, hx2h, d2ne, d2d,
    hx3ne, hx3h, by rw [← hid, hidv]⟩
  · rw [htl] at hg
    rw [lit_append_eq _ _ _ e1,
      ← List.takeWhile_append_dropWhile isSpaceByte r1, q2,
      lit_append_eq _ _ _ e3, q4, lit_append_eq _ _ _ e5, hsuf, hsuf2, htl,
      ← hg]
    simp [List.append_assoc]
  · rw [← hg, htl]
  · intro c hc
    have := List.mem_takeWhile_imp hc
    simpa [isSpaceByte] using this

theorem forall_mem_append_intro {P : Nat → Prop} {l1 l2 : Bytes}
    (h1 : ∀ c ∈ l1, P c) (h2 : ∀ c ∈ l2, P c) : ∀ c ∈ l1 ++ l2, P c := by
  intro c hc
  rcases List.mem_append.mp hc with hc | hc
  · exact h1 c hc
  · exact h2 c hc

theorem isDigitByte_ne_newline (c : Nat) (hc : isDigitByte c = true) :
    c ≠ 10 := by
  simp only [isDigitByte, Bool.and_eq_true, decide_eq_true_eq] at hc
  omega

theorem isHexUByte_ne_newline (c : Nat) (hc : isHexUByte c = true) :
    c ≠ 10 := by
  simp only [isHexUByte, isDigitByte, Bool.or_eq_true, Bool.and_eq_true,
    decide_eq_true_eq] at hc
  omega

/-- No byte of a successful match is the newline byte. -/
theorem stackMatch_no_newline (line g0 : Bytes) (i : Nat)
    (h : stackMatch line = some (g0, i)) : ∀ c ∈ g0, c ≠ 10 := by
  obtain ⟨sp, d1, hx1, mid, hx2, d2, hx3, rest, _, hg, hsp, _, d1d, _, hx1h,
    hmid, _, hx2h, _, d2d, _, hx3h, _⟩ := stackMatch_eq _ _ _ h
  rw [hg]
  refine forall_mem_append_intro (forall_mem_append_intro
    (forall_mem_append_intro (forall_mem_append_intro
      (forall_mem_append_intro (forall_mem_append_intro
        (forall_mem_append_intro ?_ ?_) ?_) ?_) ?_) ?_) ?_) ?_
  · decide
  · intro c hc
    rw [hsp c hc]
    decide
  · exact fun c hc => isDigitByte_ne_newline c (d1d c hc)
  · decide
  · exact fun c hc => isHexUByte_ne_newline c (hx1h c hc)
  · decide
  · exact hmid
  · refine forall_mem_append_intro (forall_mem_append_intro
      (forall_mem_append_intro (forall_mem_append_intro
        (forall_mem_append_intro ?_ ?_) ?_) ?_) ?_) ?_
    · decide
    · exact fun c hc => isHexUByte_ne_newline c (hx2h c hc)
    · decide
    · exact fun c hc => isDigitByte_ne_newline c (d2d c hc)
    · decide
    · exact fun c hc => isHexUByte_ne_newline c (hx3h c hc)

/-!
## Claim C10: output of `add_name` on matched lines
-/

theorem mem_rstripUS (c : Nat) (s : Bytes) (h : c ∈ rstripUS s) : c ∈ s := by
  unfold rstripUS at h
  rw [List.mem_reverse] at h
  rw [← List.mem_reverse]
  exact (List.dropWhile_sublist _).subset h

/-- C10: on a line that matches the stack-frame pattern, the output of
`add_name` always ends in exactly one newline byte (none occurs earlier in
it), and everything the input line carried after the matched bytes — its
line terminator included — is discarded: the output is a function of the
match alone, so a matched line without a trailing newline gains one. -/
theorem add_name_matched_output (line : Bytes) (lk : Nat → Option Bytes)
    (w : Nat) (g0 : Bytes) (i : Nat)
    (hm : stackMatch line = some (g0, i))
    (hname : ∀ n, lk i = some n → (10 : Nat) ∉ n) :
    (∃ rest, line = g0 ++ rest) ∧
    (∃ u, add_name line lk w = u ++ [10] ∧ (10 : Nat) ∉ u) ∧
    (lk i = none → add_name line lk w = g0 ++ [10]) ∧
    (∀ n, lk i = some n → n ≠ [] →
      add_name line lk w = ljust g0 w ++ rstripUS n ++ [10]) := by
  have hno10 : (10 : Nat) ∉ g0 := by
    intro hmem
    exact stackMatch_no_newline line g0 i hm 10 hmem rfl
  obtain ⟨_, _, _, _, _, _, _, rest, hline, _⟩ := stackMatch_eq _ _ _ hm
  refine ⟨⟨rest, hline⟩, ?_, ?_, ?_⟩
  · rcases hlk : lk i with _ | n
    · exact ⟨g0, by simp [add_name, hm, hlk], hno10⟩
    · by_cases hn : n = []
      · exact ⟨g0, by simp [add_name, hm, hlk, hn], hno10⟩
      · refine ⟨ljust g0 w ++ rstripUS n, by simp [add_name, hm, hlk, hn], ?_⟩
        intro hmem
        rcases List.mem_append.mp hmem with hmem | hmem
        · rcases List.mem_append.mp hmem with hmem | hmem
          · exact hno10 hmem
          · have := List.eq_of_mem_replicate hmem
            omega
        · exact hname n hlk (mem_rstripUS _ _ hmem)
  · intro hlk
    simp [add_name, hm, hlk]
  · intro n hlk hn
    simp [add_name, hm, hlk, hn]

/-- Witness for C10 at a matched line with no trailing newline. -/
theorem add_name_matched_output_witness :
    (∃ rest, strBytes ("\t[ 0] 0xA B+C -> 5+0xD") =
      strBytes ("\t[ 0] 0xA B+C -> 5+0xD") ++ rest) ∧
    (∃ u, add_name (strBytes ("\t[ 0] 0xA B+C -> 5+0xD"))
        (fun _ => none) 0 = u ++ [10] ∧ (10 : Nat) ∉ u) ∧
    ((fun _ => (none : Option Bytes)) 5 = none →
      add_name (strBytes ("\t[ 0] 0xA B+C -> 5+0xD")) (fun _ => none) 0 =
        strBytes ("\t[ 0] 0xA B+C -> 5+0xD") ++ [10]) ∧
    (∀ n, (fun _ => (none : Option Bytes)) 5 = some n → n ≠ [] →
      add_name (strBytes ("\t[ 0] 0xA B+C -> 5+0xD")) (fun _ => none) 0 =
        ljust (strBytes ("\t[ 0] 0xA B+C -> 5+0xD")) 0 ++ rstripUS n
          ++ [10]) :=
  add_name_matched_output (strBytes ("\t[ 0] 0xA B+C -> 5+0xD"))
    (fun _ => none) 0 (strBytes ("\t[ 0] 0xA B+C -> 5+0xD")) 5
    (by decide) (fun n h => Option.noConfusion h)

/-!
## Completeness of the matcher
-/

theorem lit_complete (l r : Bytes) : lit l (l ++ r) = some r := by
  induction l with
  | nil => rfl
  | cons c l' ih => simp [lit, ih]

theorem takeWhile_append_exact (p : Nat → Bool) (t r : Bytes)
    (ht : ∀ c ∈ t, p c = true) (hr : ∀ c ∈ r.head?, p c = false) :
    (t ++ r).takeWhile p = t ∧ (t ++ r).dropWhile p = r := by
  induction t with
  | nil =>
    cases r with
    | nil => exact ⟨rfl, rfl⟩
    | cons c r' =>
      have hc : p c = false := hr c (by simp)
      simp [List.takeWhile_cons, List.dropWhile_cons, hc]
  | cons a t' ih =>
    have ha : p a = true := ht a (by simp)
    have := ih (fun c hc => ht c (by simp [hc]))
    simp [List.takeWhile_cons, List.dropWhile_cons, ha, this.1, this.2]

theorem plusRun_complete (p : Nat → Bool) (t r : Bytes) (htne : t ≠ [])
    (ht : ∀ c ∈ t, p c = true) (hr : ∀ c ∈ r.head?, p c = false) :
    plusRun p (t ++ r) = some (t, r) := by
  obtain ⟨h1, h2⟩ := takeWhile_append_exact p t r ht hr
  unfold plusRun
  rw [h1, h2, if_neg htne]

theorem plusRun_isSome (p : Nat → Bool) (t r : Bytes) (htne : t ≠ [])
    (ht : ∀ c ∈ t, p c = true) : ∃ v, plusRun p (t ++ r) = some v := by
  have hne : (t ++ r).takeWhile p ≠ [] := by
    cases t with
    | nil => exact absurd rfl htne
    | cons a t' =>
      have ha : p a = true := ht a (by simp)
      simp [List.takeWhile_cons, ha]
  unfold plusRun
  rw [if_neg hne]
  exact ⟨_, rfl⟩

theorem matchTail_complete (hx2 d2 hx3 rest : Bytes)
    (hx2ne : hx2 ≠ []) (hx2h : ∀ c ∈ hx2, isHexUByte c = true)
    (d2ne : d2 ≠ []) (d2d : ∀ c ∈ d2, isDigitByte c = true)
    (hx3ne : hx3 ≠ []) (hx3h : ∀ c ∈ hx3, isHexUByte c = true) :
    (matchTail ([43] ++ (hx2 ++ ([32, 45, 62, 32] ++
      (d2 ++ ([43, 48, 120] ++ (hx3 ++ rest))))))).isSome := by
  have e1 : lit [43] ([43] ++ (hx2 ++ ([32, 45, 62, 32] ++
      (d2 ++ ([43, 48, 120] ++ (hx3 ++ rest)))))) = some (hx2 ++
      ([32, 45, 62, 32] ++ (d2 ++ ([43, 48, 120] ++ (hx3 ++ rest))))) :=
    lit_complete _ _
  have e2 : plusRun isHexUByte (hx2 ++ ([32, 45, 62, 32] ++
      (d2 ++ ([43, 48, 120] ++ (hx3 ++ rest))))) = some (hx2,
      [32, 45, 62, 32] ++ (d2 ++ ([43, 48, 120] ++ (hx3 ++ rest)))) := by
    refine plusRun_complete _ _ _ hx2ne hx2h ?_
    intro c hc
    simp only [List.cons_append, List.head?_cons, Option.mem_def,
      Option.some.injEq] at hc
    rw [← hc]
    decide
  have e3 : lit [32, 45, 62, 32] ([32, 45, 62, 32] ++
      (d2 ++ ([43, 48, 120] ++ (hx3 ++ rest)))) =
      some (d2 ++ ([43, 48, 120] ++ (hx3 ++ rest))) := lit_complete _ _
  have e4 : plusRun isDigitByte (d2 ++ ([43, 48, 120] ++ (hx3 ++ rest))) =
      some (d2, [43, 48, 120] ++ (hx3 ++ rest)) := by
    refine plusRun_complete _ _ _ d2ne d2d ?_
    intro c hc
    simp only [List.cons_append, List.head?_cons, Option.mem_def,
      Option.some.injEq] at hc
    rw [← hc]
    decide
  have e5 : lit [43, 48, 120] ([43, 48, 120] ++ (hx3 ++ rest)) =
      some (hx3 ++ rest) := lit_complete _ _
  obtain ⟨⟨a, b⟩, e6⟩ := plusRun_isSome isHexUByte hx3 rest hx3ne hx3h
  simp only [List.cons_append, List.nil_append] at e1 e2 e3 e4 e5 e6
  simp [matchTail, e1, e2, e3, e4, e5, e6]

theorem starScan_of_matchTail (s : Bytes) (hm : (matchTail s).isSome) :
    (starScan s).isSome := by
  obtain ⟨v, hv⟩ := Option.isSome_iff_exists.mp hm
  cases s with
  | nil => simp [starScan, hv]
  | cons c rest =>
    simp only [starScan]
    by_cases hc : c = 10
    · subst hc
      rw [if_pos rfl]
      simp [hv]
    · rw [if_neg hc]
      rcases e : starScan rest with _ | p
      · simp [e, hv]
      · simp [e]

theorem starScan_complete (pre suf : Bytes) (hno : ∀ c ∈ pre, c ≠ 10)
    (hm : (matchTail suf).isSome) : (starScan (pre ++ suf)).isSome := by
  induction pre with
  | nil => exact starScan_of_matchTail suf hm
  | cons c pre' ih =>
    have hc : ¬ c = 10 := hno c (by simp)
    have ih' := ih (fun x hx => hno x (by simp [hx]))
    rw [List.cons_append]
    simp only [starScan]
    rw [if_neg hc]
    rcases e : starScan (pre' ++ suf) with _ | p
    · rw [e] at ih'
      cases ih'
    · simp [e]

theorem isDigitByte_not_space (c : Nat) (h : isDigitByte c = true) :
    isSpaceByte c = false := by
  simp only [isDigitByte, Bool.and_eq_true, decide_eq_true_eq] at h
  simp only [isSpaceByte, beq_eq_false_iff_ne, ne_eq]
  omega

theorem stackMatch_complete (sp d1 hx1 mid hx2 d2 hx3 rest : Bytes)
    (hsp : ∀ c ∈ sp, c = 32)
    (d1ne : d1 ≠ []) (d1d : ∀ c ∈ d1, isDigitByte c = true)
    (hx1ne : hx1 ≠ []) (hx1h : ∀ c ∈ hx1, isHexUByte c = true)
    (hmid : ∀ c ∈ mid, c ≠ 10)
    (hx2ne : hx2 ≠ []) (hx2h : ∀ c ∈ hx2, isHexUByte c = true)
    (d2ne : d2 ≠ []) (d2d : ∀ c ∈ d2, isDigitByte c = true)
    (hx3ne : hx3 ≠ []) (hx3h : ∀ c ∈ hx3, isHexUByte c = true) :
    (stackMatch ([9, 91] ++ sp ++ d1 ++ [93, 32, 48, 120] ++ hx1 ++ [32]
      ++ mid ++ [43] ++ hx2 ++ [32, 45, 62, 32] ++ d2 ++ [43, 48, 120]
      ++ hx3 ++ rest)).isSome := by
  have hflat : [9, 91] ++ sp ++ d1 ++ [93, 32, 48, 120] ++ hx1 ++ [32]
      ++ mid ++ [43] ++ hx2 ++ [32, 45, 62, 32] ++ d2 ++ [43, 48, 120]
      ++ hx3 ++ rest =
      [9, 91] ++ (sp ++ (d1 ++ ([93, 32, 48, 120] ++ (hx1 ++ ([32] ++
        (mid ++ ([43] ++ (hx2 ++ ([32, 45, 62, 32] ++ (d2 ++
        ([43, 48, 120] ++ (hx3 ++ rest)))))))))))) := by
    simp [List.append_assoc]
  rw [hflat]
  have e1 : lit [9, 91] ([9, 91] ++ (sp ++ (d1 ++ ([93, 32, 48, 120] ++
      (hx1 ++ ([32] ++ (mid ++ ([43] ++ (hx2 ++ ([32, 45, 62, 32] ++
      (d2 ++ ([43, 48, 120] ++ (hx3 ++ rest))))))))))))) =
      some (sp ++ (d1 ++ ([93, 32, 48, 120] ++ (hx1 ++ ([32] ++
      (mid ++ ([43] ++ (hx2 ++ ([32, 45, 62, 32] ++ (d2 ++
      ([43, 48, 120] ++ (hx3 ++ rest)))))))))))) := lit_complete _ _
  obtain ⟨c0, d1', rfl⟩ : ∃ c0 d1', d1 = c0 :: d1' := by
    cases d1 with
    | nil => exact absurd rfl d1ne
    | cons a b => exact ⟨a, b, rfl⟩
  have hc0 : isDigitByte c0 = true := d1d c0 (by simp)
  have hsp' : ∀ c ∈ sp, isSpaceByte c = true := by
    intro c hc
    rw [hsp c hc]
    decide
  obtain ⟨htake, hdrop⟩ := takeWhile_append_exact isSpaceByte sp
    ((c0 :: d1') ++ ([93, 32, 48, 120] ++ (hx1 ++ ([32] ++ (mid ++
      ([43] ++ (hx2 ++ ([32, 45, 62, 32] ++ (d2 ++ ([43, 48, 120] ++
      (hx3 ++ rest)))))))))))
    hsp'
    (by
      intro c hc
      simp only [List.cons_append, List.head?_cons, Option.mem_def,
        Option.some.injEq] at hc
      rw [← hc]
      exact isDigitByte_not_space c0 hc0)
  have e2 : plusRun isDigitByte ((c0 :: d1') ++ ([93, 32, 48, 120] ++
      (hx1 ++ ([32] ++ (mid ++ ([43] ++ (hx2 ++ ([32, 45, 62, 32] ++
      (d2 ++ ([43, 48, 120] ++ (hx3 ++ rest))))))))))) =
      some (c0 :: d1', [93, 32, 48, 120] ++ (hx1 ++ ([32] ++ (mid ++
      ([43] ++ (hx2 ++ ([32, 45, 62, 32] ++ (d2 ++ ([43, 48, 120] ++
      (hx3 ++ rest)))))))))) := by
    refine plusRun_complete _ _ _ (by simp) d1d ?_
    intro c hc
    simp only [List.cons_append, List.head?_cons, Option.mem_def,
      Option.some.injEq] at hc
    rw [← hc]
    decide
  have e3 : lit [93, 32, 48, 120] ([93, 32, 48, 120] ++ (hx1 ++ ([32] ++
      (mid ++ ([43] ++ (hx2 ++ ([32, 45, 62, 32] ++ (d2 ++
      ([43, 48, 120] ++ (hx3 ++ rest)))))))))) =
      some (hx1 ++ ([32] ++ (mid ++ ([43] ++ (hx2 ++ ([32, 45, 62, 32] ++
      (d2 ++ ([43, 48, 120] ++ (hx3 ++ rest))))))))) := lit_complete _ _
  have e4 : plusRun isHexUByte (hx1 ++ ([32] ++ (mid ++ ([43] ++
      (hx2 ++ ([32, 45, 62, 32] ++ (d2 ++ ([43, 48, 120] ++
      (hx3 ++ rest))))))))) =
      some (hx1, [32] ++ (mid ++ ([43] ++ (hx2 ++ ([32, 45, 62, 32] ++
      (d2 ++ ([43, 48, 120] ++ (hx3 ++ rest)))))))) := by
    refine plusRun_complete _ _ _ hx1ne hx1h ?_
    intro c hc
    simp only [List.cons_append, List.head?_cons, Option.mem_def,
      Option.some.injEq] at hc
    rw [← hc]
    decide
  have e5 : lit [32] ([32] ++ (mid ++ ([43] ++ (hx2 ++
      ([32, 45, 62, 32] ++ (d2 ++ ([43, 48, 120] ++ (hx3 ++ rest)))))))) =
      some (mid ++ ([43] ++ (hx2 ++ ([32, 45, 62, 32] ++ (d2 ++
      ([43, 48, 120] ++ (hx3 ++ rest))))))) := lit_complete _ _
  have e6 := starScan_complete mid ([43] ++ (hx2 ++ ([32, 45, 62, 32] ++
      (d2 ++ ([43, 48, 120] ++ (hx3 ++ rest)))))) hmid
    (matchTail_complete hx2 d2 hx3 rest hx2ne hx2h d2ne d2d hx3ne hx3h)
  obtain ⟨⟨smid, stl, sidv⟩, e6'⟩ := Option.isSome_iff_exists.mp e6
  simp only [List.cons_append, List.nil_append] at e1 htake hdrop e2 e3
  simp only [List.cons_append, List.nil_append] at e4 e5 e6'
  simp [stackMatch, e1, htake, hdrop, e2, e3, e4, e5, e6']

/-!
## Claim C9: the stack-frame line shape

`SpecFrameShape` renders the shape the specification describes: tab, `[`,
spaces, digits, `]`, space, `0x` + uppercase hex, space, a run of bytes
constrained by `midOk` ending in `+` + uppercase hex, literal `" -> "`,
decimal digits, `+0x`, uppercase hex — all at the start of the line, with
arbitrary bytes following.  The spec words the run as "arbitrary non-space
run" (`midOk c = (c ≠ 32)`); the pattern's `.*` actually admits every byte
but a newline (`midOk c = (c ≠ 10)`).
-/

def SpecFrameShape (midOk : Nat → Prop) (line : Bytes) : Prop :=
  ∃ sp d1 hx1 mid hx2 d2 hx3 rest,
    line = [9, 91] ++ sp ++ d1 ++ [93, 32, 48, 120] ++ hx1 ++ [32] ++ mid
      ++ [43] ++ hx2 ++ [32, 45, 62, 32] ++ d2 ++ [43, 48, 120] ++ hx3
      ++ rest ∧
    (∀ c ∈ sp, c = 32) ∧
    d1 ≠ [] ∧ (∀ c ∈ d1, isDigitByte c = true) ∧
    hx1 ≠ [] ∧ (∀ c ∈ hx1, isHexUByte c = true) ∧
    (∀ c ∈ mid, midOk c) ∧
    hx2 ≠ [] ∧ (∀ c ∈ hx2, isHexUByte c = true) ∧
    d2 ≠ [] ∧ (∀ c ∈ d2, isDigitByte c = true) ∧
    hx3 ≠ [] ∧ (∀ c ∈ hx3, isHexUByte c = true)

/-- C9 counterexample: the line
`"\t[0] 0xA a\nb+F -> 1+0xA"` fits the claim's shape — its middle run
`"a\nb"` contains no space byte — yet `STACK_PATTERN` does not recognize it,
because `.*` never crosses the newline byte.  The claimed "non-space run"
shape is therefore not equivalent to the pattern. -/
theorem stackMatch_shape_cex :
    stackMatch (strBytes ("\t[0] 0xA a\nb+F -> 1+0xA")) = none ∧
    SpecFrameShape (fun c => c ≠ 32)
      (strBytes ("\t[0] 0xA a\nb+F -> 1+0xA")) := by
  refine ⟨by decide, [], [48], [65], [97, 10, 98], [70], [49], [65], [],
    by decide, ?_, ?_, ?_, ?_, ?_, ?_, ?_, ?_, ?_, ?_, ?_, ?_⟩
  all_goals decide

/-- C9 amended: a line is recognized as a stack frame iff it begins with a
tab, `[`, zero or more spaces, decimal digits, `]`, a space, `0x` plus
uppercase hex digits, a space, a run of arbitrary **non-newline** bytes
(spaces included) ending in `+` plus uppercase hex digits, the literal
`" -> "`, decimal digits (the id), then `+0x` plus uppercase hex digits;
every line that does not match is returned by `add_name` unchanged. -/
theorem stackMatch_iff_shape (line : Bytes) (lk : Nat → Option Bytes)
    (w : Nat) :
    ((stackMatch line).isSome ↔ SpecFrameShape (fun c => c ≠ 10) line) ∧
    (stackMatch line = none → add_name line lk w = line) := by
  constructor
  · constructor
    · intro h
      obtain ⟨⟨g0, i⟩, hv⟩ := Option.isSome_iff_exists.mp h
      obtain ⟨sp, d1, hx1, mid, hx2, d2, hx3, rest, hline, hg, hsp, d1ne,
        d1d, hx1ne, hx1h, hmid, hx2ne, hx2h, d2ne, d2d, hx3ne, hx3h, _⟩ :=
        stackMatch_eq _ _ _ hv
      refine ⟨sp, d1, hx1, mid, hx2, d2, hx3, rest, ?_, hsp, d1ne, d1d,
        hx1ne, hx1h, hmid, hx2ne, hx2h, d2ne, d2d, hx3ne, hx3h⟩
      rw [hline, hg]
      simp [List.append_assoc]
    · intro h
      obtain ⟨sp, d1, hx1, mid, hx2, d2, hx3, rest, hline, hsp, d1ne, d1d,
        hx1ne, hx1h, hmid, hx2ne, hx2h, d2ne, d2d, hx3ne, hx3h⟩ := h
      rw [hline]
      exact stackMatch_complete sp d1 hx1 mid hx2 d2 hx3 rest hsp d1ne d1d
        hx1ne hx1h hmid hx2ne hx2h d2ne d2d hx3ne hx3h
  · intro h
    simp [add_name, h]

/-- Witness for the amended C9 at a concrete non-matching line. -/
theorem stackMatch_iff_shape_witness :
    add_name (strBytes ("plain line")) (fun _ => none) 3 =
      strBytes ("plain line") :=
  (stackMatch_iff_shape (strBytes ("plain line")) (fun _ => none) 3).2
    (by decide)

/-!
## Claim C1: correctness of the sorted merge-join lookup

`findE`/`lookupE` replay `IdScanner.find`/`lookup_ids` on the parsed
database entries; they are proof devices, linked to the byte-level
definitions by the bridge lemmas below.
-/

def findE : List (Nat × Bytes) → Nat → Option Bytes × List (Nat × Bytes)
  | [], _ => (none, [])
  | (i, n) :: rest, x =>
    if i = x then (some n, (i, n) :: rest)
    else if x < i then (none, (i, n) :: rest)
    else findE rest x

def lookupE : List (Nat × Bytes) → List Nat → List (Nat × Bytes)
  | _, [] => []
  | s, x :: xs =>
    match findE s x with
    | (none, s') => lookupE s' xs
    | (some n, s') =>
      if n = [] then lookupE s' xs else (x, n) :: lookupE s' xs

/-- Raw database lines in lockstep with their parsed entries. -/
def DbRel (lines : List Bytes) (entries : List (Nat × Bytes)) : Prop :=
  List.Forall₂ (fun l e => parseDbLine l = some e) lines entries

theorem mapEq_dbRel (lines : List Bytes) (entries : List (Nat × Bytes))
    (h : lines.map parseDbLine = entries.map some) : DbRel lines entries := by
  induction lines generalizing entries with
  | nil =>
    rw [List.map_nil] at h
    rw [List.eq_nil_of_map_eq_nil h.symm]
    exact List.Forall₂.nil
  | cons l ls ih =>
    cases entries with
    | nil => simp at h
    | cons e es =>
      simp only [List.map_cons, List.cons.injEq] at h
      exact List.Forall₂.cons h.1 (ih es h.2)

theorem find_bridge (lines : List Bytes) (entries : List (Nat × Bytes))
    (h : DbRel lines entries) (x : Nat) :
    ∃ r sl se, findE entries x = (r, se) ∧
      IdScanner.find lines x = some (r, sl) ∧ DbRel sl se := by
  induction h with
  | nil => exact ⟨none, [], [], rfl, rfl, List.Forall₂.nil⟩
  | cons hr hrel ih =>
    rename_i l e ls es
    obtain ⟨i, n⟩ := e
    by_cases h1 : i = x
    · refine ⟨some n, l :: ls, (i, n) :: es, ?_, ?_, List.Forall₂.cons hr hrel⟩
      · simp [findE, h1]
      · simp [IdScanner.find, hr, h1]
    · by_cases h2 : x < i
      · refine ⟨none, l :: ls, (i, n) :: es, ?_, ?_,
          List.Forall₂.cons hr hrel⟩
        · simp [findE, h1, h2]
        · simp [IdScanner.find, hr, h1, h2]
      · obtain ⟨r, sl, se, he, hf, hrel'⟩ := ih
        refine ⟨r, sl, se, ?_, ?_, hrel'⟩
        · simp [findE, h1, h2, he]
        · simp [IdScanner.find, hr, h1, h2, hf]

theorem lookupGo_bridge (lines : List Bytes) (entries : List (Nat × Bytes))
    (ids : List Nat) (h : DbRel lines entries) :
    lookupGo lines ids = some (lookupE entries ids) := by
  induction ids generalizing lines entries with
  | nil => rfl
  | cons x xs ih =>
    obtain ⟨r, sl, se, he, hf, hrel⟩ := find_bridge lines entries h x
    have ihres := ih sl se hrel
    cases r with
    | none => simp [lookupGo, lookupE, hf, he, ihres]
    | some n =>
      by_cases hn : n = []
      · simp [lookupGo, lookupE, hf, he, ihres, hn]
      · simp [lookupGo, lookupE, hf, he, ihres, hn]

theorem findE_split (s : List (Nat × Bytes)) (x : Nat) :
    ∃ pre, s = pre ++ (findE s x).2 ∧ ∀ e ∈ pre, e.1 < x := by
  induction s with
  | nil => exact ⟨[], rfl, by simp⟩
  | cons e rest ih =>
    obtain ⟨i, n⟩ := e
    by_cases h1 : i = x
    · exact ⟨[], by simp [findE, h1], by simp⟩
    · by_cases h2 : x < i
      · exact ⟨[], by simp [findE, h1, h2], by simp⟩
      · obtain ⟨pre, hp, hlt⟩ := ih
        refine ⟨(i, n) :: pre, ?_, ?_⟩
        · simp only [findE, if_neg h1, if_neg h2]
          rw [List.cons_append, ← hp]
        · intro e he
          rcases List.mem_cons.mp he with he | he
          · rw [he]; simp; omega
          · exact hlt e he

theorem findE_found (s : List (Nat × Bytes)) (x : Nat) (n : Bytes)
    (hs : s.Pairwise (fun a b => a.1 < b.1)) :
    (findE s x).1 = some n ↔ (x, n) ∈ s := by
  induction s with
  | nil => simp [findE]
  | cons e rest ih =>
    obtain ⟨i, m⟩ := e
    rw [List.pairwise_cons] at hs
    by_cases h1 : i = x
    · subst h1
      have hval : (findE ((i, m) :: rest) i).1 = some m := by simp [findE]
      rw [hval]
      simp only [List.mem_cons]
      constructor
      · intro hmn
        injection hmn with hmn
        left
        rw [hmn]
      · rintro (heq | hmem)
        · injection heq with _ h2'
          rw [h2']
        · exact absurd (hs.1 (i, n) hmem) (by simp)
    · by_cases h2 : x < i
      · have hval : (findE ((i, m) :: rest) x).1 = none := by
          simp [findE, h1, h2]
        rw [hval]
        simp only [List.mem_cons]
        constructor
        · intro hc
          cases hc
        · rintro (heq | hmem)
          · injection heq with h1' h2'
            exact absurd h1'.symm h1
          · have := hs.1 (x, n) hmem
            simp only at this
            omega
      · have hval : (findE ((i, m) :: rest) x).1 = (findE rest x).1 := by
          simp [findE, h1, h2]
        rw [hval, ih hs.2]
        simp only [List.mem_cons]
        constructor
        · intro hmem
          right
          exact hmem
        · rintro (heq | hmem)
          · injection heq with h1' h2'
            exact absurd h1'.symm h1
          · exact hmem

theorem pairwise_key_unique (entries : List (Nat × Bytes))
    (hs : entries.Pairwise (fun a b => a.1 < b.1)) (x : Nat) (m n : Bytes)
    (hm : (x, m) ∈ entries) (hn : (x, n) ∈ entries) : m = n := by
  induction entries with
  | nil => cases hm
  | cons e rest ih =>
    rw [List.pairwise_cons] at hs
    rcases List.mem_cons.mp hm with hm' | hm'
    · rcases List.mem_cons.mp hn with hn' | hn'
      · rw [← hm'] at hn'
        injection hn' with _ h
        exact h.symm
      · have := hs.1 (x, n) hn'
        rw [← hm'] at this
        simp at this
    · rcases List.mem_cons.mp hn with hn' | hn'
      · have := hs.1 (x, m) hm'
        rw [← hn'] at this
        simp at this
      · exact ih hs.2 hm' hn'

theorem lookupE_spec (entries pre s : List (Nat × Bytes)) (ids : List Nat)
    (hsplit : entries = pre ++ s)
    (hsorted : entries.Pairwise (fun a b => a.1 < b.1))
    (hids : ids.Pairwise (· < ·))
    (hpre : ∀ e ∈ pre, ∀ x ∈ ids, e.1 < x)
    (hnames : ∀ e ∈ entries, e.2 ≠ []) :
    ∀ i m, (i, m) ∈ lookupE s ids ↔ i ∈ ids ∧ (i, m) ∈ entries := by
  induction ids generalizing pre s with
  | nil => simp [lookupE]
  | cons x xs ih =>
    rcases hfe : findE s x with ⟨r, s'⟩
    obtain ⟨pre2, hp2, hlt2⟩ := findE_split s x
    rw [hfe] at hp2
    have hsorted_s : s.Pairwise (fun a b => a.1 < b.1) := by
      have h2 := hsorted
      rw [hsplit] at h2
      exact h2.sublist (List.sublist_append_right pre s)
    obtain ⟨hxlt, hxs⟩ := List.pairwise_cons.mp hids
    have hsplit' : entries = (pre ++ pre2) ++ s' := by
      rw [hsplit, hp2, List.append_assoc]
    have hpre' : ∀ e ∈ pre ++ pre2, ∀ y ∈ xs, e.1 < y := by
      intro e he y hy
      rcases List.mem_append.mp he with he | he
      · exact hpre e he y (List.mem_cons_of_mem x hy)
      · exact Nat.lt_trans (hlt2 e he) (hxlt y hy)
    have ihres := ih (pre ++ pre2) s' hsplit' hxs hpre'
    cases r with
    | none =>
      intro i m
      simp only [lookupE, hfe]
      rw [ihres i m]
      constructor
      · rintro ⟨hi, hm⟩
        exact ⟨List.mem_cons_of_mem x hi, hm⟩
      · rintro ⟨hi, hm⟩
        rcases List.mem_cons.mp hi with rfl | hi
        · exfalso
          have hm_s : (i, m) ∈ s := by
            rcases List.mem_append.mp (hsplit ▸ hm) with hmem | hmem
            · exact absurd (hpre _ hmem i (List.mem_cons_self i xs))
                (by simp)
            · exact hmem
          have := (findE_found s i m hsorted_s).mpr hm_s
          rw [hfe] at this
          cases this
        · exact ⟨hi, hm⟩
    | some n =>
      have hxn_s : (x, n) ∈ s := by
        refine (findE_found s x n hsorted_s).mp ?_
        rw [hfe]
      have hxn : (x, n) ∈ entries := by
        rw [hsplit]
        exact List.mem_append_right pre hxn_s
      have hn : n ≠ [] := hnames (x, n) hxn
      intro i m
      simp only [lookupE, hfe, if_neg hn, List.mem_cons]
      rw [ihres i m]
      constructor
      · rintro (heq | ⟨hi, hm⟩)
        · injection heq with h1' h2'
          subst h1'
          subst h2'
          exact ⟨Or.inl rfl, hxn⟩
        · exact ⟨Or.inr hi, hm⟩
      · rintro ⟨hi, hm⟩
        rcases hi with rfl | hi
        · left
          rw [pairwise_key_unique entries hsorted i m n hm hxn]
        · right
          exact ⟨hi, hm⟩

theorem pySplit_no_nil_token (s : Bytes) :
    ∀ acc, ([] : Bytes) ∉ pySplitAux s acc := by
  induction s with
  | nil =>
    intro acc
    unfold pySplitAux
    by_cases ha : acc = []
    · rw [if_pos ha]
      exact List.not_mem_nil _
    · rw [if_neg ha]
      intro hmem
      rcases List.mem_singleton.mp hmem with heq
      exact ha (List.reverse_eq_nil_iff.mp heq.symm)
  | cons c r ih =>
    intro acc
    unfold pySplitAux
    by_cases hw : isPyWhitespace c
    · rw [if_pos hw]
      by_cases ha : acc = []
      · rw [if_pos ha]
        exact ih []
      · rw [if_neg ha]
        intro hmem
        rcases List.mem_cons.mp hmem with heq | hmem
        · exact ha (List.reverse_eq_nil_iff.mp heq.symm)
        · exact ih [] hmem
    · rw [if_neg hw]
      exact ih (c :: acc)

theorem parseDbLine_name_ne_nil (l : Bytes) (i : Nat) (n : Bytes)
    (h : parseDbLine l = some (i, n)) : n ≠ [] := by
  rcases hs : pySplit l with _ | ⟨a, rest⟩
  · simp [parseDbLine, hs] at h
  rcases rest with _ | ⟨b, rest2⟩
  · simp [parseDbLine, hs] at h
  rcases rest2 with _ | ⟨c, rest3⟩
  · simp only [parseDbLine, hs] at h
    rcases hd : parseDigits a with _ | v
    · simp [hd] at h
    · simp only [hd] at h
      injection h with h'
      injection h' with _ h2
      intro hb
      rw [hb] at h2
      have : ([] : Bytes) ∈ pySplit l := by
        rw [hs, ← h2]
        simp
      exact pySplit_no_nil_token l [] this
  · simp [parseDbLine, hs] at h

theorem dbRel_names (lines : List Bytes) (entries : List (Nat × Bytes))
    (h : DbRel lines entries) : ∀ e ∈ entries, e.2 ≠ [] := by
  induction h with
  | nil => simp
  | cons hr hrel ih =>
    rename_i l e ls es
    intro e' he'
    rcases List.mem_cons.mp he' with rfl | he'
    · obtain ⟨i, n⟩ := e'
      exact parseDbLine_name_ne_nil l i n hr
    · exact ih e' he'

/-- C1: for a database file whose post-header lines parse as
`(id, name)` entries sorted strictly ascending by id, probing a strictly
ascending, duplicate-free id list through the single shared scanner yields
exactly the pairs `(i, n)` with `i` queried and `(i, n)` a database entry —
every queried id present in the database is resolved to its name, and no
absent id contributes an entry. -/
theorem lookup_ids_correct (lines : List Bytes)
    (entries : List (Nat × Bytes)) (ids : List Nat)
    (hdb : (lines.drop 1).map parseDbLine = entries.map some)
    (hsorted : entries.Pairwise (fun a b => a.1 < b.1))
    (hids : ids.Pairwise (· < ·)) :
    ∃ lk, lookup_ids (some lines) ids = some lk ∧
      ∀ i n, (i, n) ∈ lk ↔ i ∈ ids ∧ (i, n) ∈ entries := by
  have hrel : DbRel (lines.drop 1) entries := mapEq_dbRel _ _ hdb
  refine ⟨lookupE entries ids, ?_, ?_⟩
  · unfold lookup_ids
    exact lookupGo_bridge _ _ ids hrel
  · exact lookupE_spec entries [] entries ids rfl hsorted hids (by simp)
      (dbRel_names _ _ hrel)

/-- Witness for C1 on the spec's example database and query list. -/
theorem lookup_ids_correct_witness :
    ∃ lk, lookup_ids (some [strBytes ("hdr\n"), strBytes ("5 a\n"),
        strBytes ("10 b\n"), strBytes ("20 c\n")]) [10, 20] = some lk ∧
      ∀ i n, (i, n) ∈ lk ↔ i ∈ [10, 20] ∧
        (i, n) ∈ [(5, [97]), (10, [98]), (20, [99])] :=
  lookup_ids_correct [strBytes ("hdr\n"), strBytes ("5 a\n"),
    strBytes ("10 b\n"), strBytes ("20 c\n")]
    [(5, [97]), (10, [98]), (20, [99])] [10, 20]
    (by decide) (by decide) (by decide)

end CrashLogTools
